import Mathlib

/-!
Verification of the crafting planner (craft_planner.py): the state
representation, rule compilation (make_checker, make_effector,
make_goal_checker), successor generation (graph), and the time-bounded
best-first search with path reconstruction.

Modelling conventions.  Python dictionaries indexed with `state[name]` raise
`KeyError` on a missing key, so every fallible operation is modelled with
`Option`, where `none` stands for a raised `KeyError`.  Item quantities held
in a state are Python ints, modelled by `ℤ`; clause amounts and goal
thresholds come from the domain description's non-negative item quantities
and are modelled by `ℕ`; search priorities are modelled by `WithTop ℤ`
because the heuristic may return `math.inf`.  A `State` is a subclass of
`OrderedDict`, modelled as an insertion-ordered association list.
-/

namespace CraftPlanner

/-- Item names (Python strings). -/
abbrev Item := String

/-- A planner `State` wraps an `OrderedDict`: an insertion-ordered association
list from item names to integer quantities. -/
abbrev State := List (Item × ℤ)

/-- Dictionary read `state[name]`: the value at the first occurrence of the
key, or `none` when the key is absent (a Python `KeyError`). -/
def lookupS : State → Item → Option ℤ
  | [], _ => none
  | (k, v) :: rest, n => if k = n then some v else lookupS rest n

/-- Dictionary write `state[name] = x` to an existing key: replaces the value
at the first occurrence of the key, keeping its position (an `OrderedDict`
write to an existing key keeps the insertion order).  Writes to an absent key
never happen in the planner (reads raise `KeyError` first), so the absent
case leaves the list unchanged. -/
def setS : State → Item → ℤ → State
  | [], _, _ => []
  | (k, v) :: rest, n, x =>
      if k = n then (k, x) :: rest else (k, v) :: setS rest n x

/-- The `__key` method of `State`: `tuple(self.items())`, i.e. the ordered
item sequence itself. -/
def stateKey (s : State) : List (Item × ℤ) := s

/-- Python `==` on two `State`s: `OrderedDict` equality is order-sensitive,
comparing the item sequences. -/
def stateEqB (a b : State) : Bool := decide (stateKey a = stateKey b)

/-- Python `hash` on a `State` hashes `tuple(self.items())`; since CPython's
tuple hash is a pure function of that tuple, it is modelled by the key tuple
itself, which preserves exactly the guarantee that the hash depends on
nothing but the ordered item sequence. -/
def stateHash (s : State) : List (Item × ℤ) := stateKey s

/-- A raw rule description from the domain file: optional `Consumes` and
`Requires` clauses, a `Produces` clause, and a `Time` cost.  Clause amounts
are the domain description's non-negative item quantities. -/
structure RuleDesc where
  consumes : Option (List (Item × ℕ))
  requires : Option (List Item)
  produces : List (Item × ℕ)
  time : ℤ
  deriving DecidableEq

/-- The `Consumes` clause as a list (empty when the clause is absent). -/
def consList (r : RuleDesc) : List (Item × ℕ) := r.consumes.getD []

/-- The `Requires` clause as a list (empty when the clause is absent). -/
def reqList (r : RuleDesc) : List Item := r.requires.getD []

/-- The `Consumes` loop of `check`: for each `(name, amount)` it evaluates
`state[name] < amount`, returning `False` on the first failure; a missing
key raises `KeyError` (`none`). -/
def checkConsumes (s : State) : List (Item × ℕ) → Option Bool
  | [] => some true
  | (n, a) :: rest =>
      match lookupS s n with
      | none => none
      | some q => if q < (a : ℤ) then some false else checkConsumes s rest

/-- The `Requires` loop of `check`: for each `name` it evaluates
`state[name] < 1`, returning `False` on the first failure; a missing key
raises `KeyError` (`none`). -/
def checkRequires (s : State) : List Item → Option Bool
  | [] => some true
  | n :: rest =>
      match lookupS s n with
      | none => none
      | some q => if q < 1 then some false else checkRequires s rest

/-- The compiled precondition `check` returned by `make_checker`: runs the
`Consumes` loop if the clause is present (short-circuiting on a `False` or a
`KeyError`), then the `Requires` loop if that clause is present, and returns
`True` otherwise. -/
def make_checker (r : RuleDesc) (s : State) : Option Bool :=
  match (match r.consumes with
         | none => some true
         | some cs => checkConsumes s cs) with
  | none => none
  | some false => some false
  | some true =>
      match r.requires with
      | none => some true
      | some rq => checkRequires s rq

/-- One `next_state[name] -= amount` step of the `Consumes` loop of `effect`:
a read (raising `KeyError` on a missing item) followed by a write. -/
def subItem (s : State) (n : Item) (a : ℕ) : Option State :=
  match lookupS s n with
  | none => none
  | some q => some (setS s n (q - (a : ℤ)))

/-- One `next_state[name] += amount` step of the `Produces` loop of `effect`:
a read (raising `KeyError` on a missing item) followed by a write. -/
def addItem (s : State) (n : Item) (a : ℕ) : Option State :=
  match lookupS s n with
  | none => none
  | some q => some (setS s n (q + (a : ℤ)))

/-- The `Consumes` loop of `effect`, decrementing each consumed item in
clause order. -/
def consumeAll (s : State) : List (Item × ℕ) → Option State
  | [] => some s
  | (n, a) :: rest =>
      match subItem s n a with
      | none => none
      | some s2 => consumeAll s2 rest

/-- The `Produces` loop of `effect`, incrementing each produced item in
clause order. -/
def produceAll (s : State) : List (Item × ℕ) → Option State
  | [] => some s
  | (n, a) :: rest =>
      match addItem s n a with
      | none => none
      | some s2 => produceAll s2 rest

/-- The compiled `effect` returned by `make_effector`: copies the state
(`state.copy()`, pure here), runs the `Consumes` loop when the clause is
present, then the (unconditional) `Produces` loop. -/
def make_effector (r : RuleDesc) (s : State) : Option State :=
  match (match r.consumes with
         | none => some s
         | some cs => consumeAll s cs) with
  | none => none
  | some s2 => produceAll s2 r.produces

/-- The loop body of the compiled `is_goal` returned by `make_goal_checker`:
for each `(name, amount)` of the goal it evaluates `state[name] < amount`,
returning `False` on the first failure; a missing key raises `KeyError`. -/
def is_goal : List (Item × ℕ) → State → Option Bool
  | [], _ => some true
  | (n, a) :: rest, s =>
      match lookupS s n with
      | none => none
      | some q => if q < (a : ℤ) then some false else is_goal rest s

/-- The compiled goal predicate returned by `make_goal_checker`. -/
def make_goal_checker (goal : List (Item × ℕ)) : State → Option Bool :=
  is_goal goal

/-- A compiled `Recipe` namedtuple: name, compiled check, compiled effect,
and cost. -/
structure Recipe where
  name : String
  check : State → Option Bool
  effect : State → Option State
  cost : ℤ

/-- The body of the rule-building loop of the program entry point: it builds
`Recipe(name, make_checker(rule), make_effector(rule), rule['Time'])` for a
rule description, with no validation of any kind. -/
def compileRule (name : String) (r : RuleDesc) : Recipe :=
  { name := name
    check := make_checker r
    effect := make_effector r
    cost := r.time }

/-- The successor generator `graph`: for each recipe in order, if its check
passes, yield `(name, effect(state), cost)`; a `KeyError` raised by a check
or an effect propagates to the consumer (`none`).  The search consumes the
generator fully, so it is modelled as the produced list. -/
def graphOf (recipes : List Recipe) (s : State) :
    Option (List (String × State × ℤ)) :=
  match recipes with
  | [] => some []
  | r :: rest =>
      match r.check s with
      | none => none
      | some false => graphOf rest s
      | some true =>
          match r.effect s with
          | none => none
          | some s2 =>
              match graphOf rest s with
              | none => none
              | some l => some ((r.name, s2, r.cost) :: l)

/-- A plan: the list of `(state, action)` tuples returned by the search. -/
abbrev Plan := List (State × String)

/-- The mutable bookkeeping of one restart of the search loop: the heap
`frontier` of `(priority, state)` entries, the predecessor dictionary
`came_from_dict` (the initial state maps to `None`, every other recorded
state to a `(state, action)` pair), and the dictionary `cost_so_far`. -/
structure SearchState where
  frontier : List (WithTop ℤ × State)
  came_from : State → Option (Option (State × String))
  cost : State → Option ℤ

/-- Python comparison `a < b` on heap entries' first components, which mix
ints and `math.inf`. -/
def prioLtB (a b : WithTop ℤ) : Bool := decide (a < b)

/-- Python `<` on two key tuples of states: lexicographic comparison of
`(string, int)` pairs, as `State.__lt__` compares `tuple(self.items())`. -/
def keyLtB : State → State → Bool
  | [], [] => false
  | [], _ :: _ => true
  | _ :: _, [] => false
  | (k1, v1) :: t1, (k2, v2) :: t2 =>
      if k1 < k2 then true
      else if k2 < k1 then false
      else if v1 < v2 then true
      else if v2 < v1 then false
      else keyLtB t1 t2

/-- Python `<` on heap entries `(priority, state)`: lexicographic, priority
first, then the state's key tuple. -/
def entryLtB (a b : WithTop ℤ × State) : Bool :=
  prioLtB a.1 b.1 || (decide (a.1 = b.1) && keyLtB a.2 b.2)

/-- Scan for the least heap entry (the first one among equals). -/
def findMin : (WithTop ℤ × State) → List (WithTop ℤ × State) → WithTop ℤ × State
  | best, [] => best
  | best, x :: rest => findMin (if entryLtB x best then x else best) rest

/-- Remove the first occurrence of a heap entry. -/
def removeEntry (e : WithTop ℤ × State) :
    List (WithTop ℤ × State) → List (WithTop ℤ × State)
  | [] => []
  | x :: rest => if x = e then rest else x :: removeEntry e rest

/-- `heappop(frontier)`: return the least entry of the heap together with the
remaining entries, or `none` on an empty heap (the inner `while frontier`
loop ends). -/
def popMin (l : List (WithTop ℤ × State)) :
    Option ((WithTop ℤ × State) × List (WithTop ℤ × State)) :=
  match l with
  | [] => none
  | x :: rest =>
      let m := findMin x rest
      some (m, removeEntry m (x :: rest))

/-- Python's boolean `next not in cost_so_far or new_cost < cost_so_far[next]`
guarding the relaxation. -/
def improves : Option ℤ → ℤ → Bool
  | none, _ => true
  | some c, nc => nc < c

/-- The body of the successor loop of `search` for one successor
`(name, nxt, action_cost)` of the popped state `current`: it computes
`new_cost = action_cost + cost_so_far[current]` and, exactly when `nxt` has
no recorded cost or `new_cost` is smaller, records the cost, pushes
`(new_cost + heuristic(current), nxt)` onto the frontier and records
`(current, name)` as the predecessor.  (The stray `make_effector(name)` call
in the source builds a closure and discards it, with no observable effect.)
A missing `cost_so_far[current]` would be a `KeyError`; the search invariant
keeps a cost recorded for every pushed state. -/
def relaxOne (h : State → WithTop ℤ) (current : State) (ss : SearchState) :
    String × State × ℤ → SearchState
  | (name, nxt, action_cost) =>
    match ss.cost current with
    | none => ss
    | some c =>
      let new_cost := action_cost + c
      if improves (ss.cost nxt) new_cost then
        { frontier := (((new_cost : ℤ) : WithTop ℤ) + h current, nxt) :: ss.frontier
          came_from := fun t =>
            if t = nxt then some (some (current, name)) else ss.came_from t
          cost := fun t => if t = nxt then some new_cost else ss.cost t }
      else ss

/-- The path-reconstruction loop of `search`: starting from the popped goal
state (already appended to the return list with the name `"complete"`), walk
`came_from_dict` back until the initial state is reached, appending each
predecessor with the action name stored beside it; the source then reverses
the list, which the accumulator builds directly.  `none` models the
`KeyError`/unpacking errors a broken predecessor map would raise, and the
fuel bounds the walk (a cycle in the map would loop forever). -/
def walkBack (cf : State → Option (Option (State × String))) (init : State) :
    ℕ → State → Plan → Option Plan
  | 0, _, _ => none
  | fuel + 1, cur, acc =>
      if cur = init then some acc
      else
        match cf cur with
        | some (some (prev, name)) => walkBack cf init fuel prev ((prev, name) :: acc)
        | _ => none

/-- The inner `while frontier` loop of `search`: pop the least entry; if the
popped state satisfies the goal, reconstruct and return the plan; otherwise
relax every successor produced by the graph on the popped state and continue.
The result is `some (some plan)` for a returned plan, `some none` when the
frontier is exhausted (the inner loop ends and the outer loop restarts), and
`none` when the modelling fuel runs out. -/
def innerLoop (g : State → List (String × State × ℤ)) (goal : State → Bool)
    (h : State → WithTop ℤ) (init : State) :
    ℕ → SearchState → Option (Option Plan)
  | 0, _ => none
  | fuel + 1, ss =>
      match popMin ss.frontier with
      | none => some none
      | some (e, rest) =>
          if goal e.2 then
            match walkBack ss.came_from init (fuel + 1) e.2 [(e.2, "complete")] with
            | none => none
            | some p => some (some p)
          else
            innerLoop g goal h init fuel
              ((g e.2).foldl (relaxOne h e.2) { ss with frontier := rest })

/-- The bookkeeping set up at the top of each restart of the outer loop:
`frontier = [(0, state)]`, `came_from_dict[state] = None`,
`cost_so_far[state] = 0`. -/
def startState (init : State) : SearchState :=
  { frontier := [((0 : ℤ), init)]
    came_from := fun t => if t = init then some none else none
    cost := fun t => if t = init then some (0 : ℤ) else none }

/-- The search entry point.  The outer `while time() - start_time < limit`
loop is modelled by a list of elapsed-clock readings, one consumed per check;
each passing check runs a fresh inner loop from `startState init`, a plan
found is returned, an exhausted frontier restarts, and a failing check
returns the Python `None`, modelled `some none`.  An empty reading list or
exhausted inner fuel gives `none`, a modelling artifact distinct from the
program's `None`. -/
def search (g : State → List (String × State × ℤ)) (goal : State → Bool)
    (h : State → WithTop ℤ) (init : State) (limit : ℤ) :
    List ℤ → ℕ → Option (Option Plan)
  | [], _ => none
  | r :: rs, fuel =>
      if r < limit then
        match innerLoop g goal h init fuel (startState init) with
        | none => none
        | some (some p) => some (some p)
        | some none => search g goal h init limit rs fuel
      else some none

/-- Scenario state: 1 wood, 0 planks. -/
def s0 : State := [("wood", (1 : ℤ)), ("plank", (0 : ℤ))]

/-- Scenario state after chopping: 0 wood, 4 planks. -/
def s1 : State := [("wood", (0 : ℤ)), ("plank", (4 : ℤ))]

/-- Scenario rule: chop consumes 1 wood, produces 4 planks, takes time 1. -/
def ruleChop : RuleDesc :=
  { consumes := some [("wood", 1)]
    requires := none
    produces := [("plank", 4)]
    time := 1 }

/-- Scenario recipe list: the single compiled chop rule. -/
def recipesA : List Recipe := [compileRule "chop" ruleChop]

/-- Scenario successor function: the generator over `recipesA`; scenario
states carry every domain item, so no `KeyError` occurs and the generator's
output list is taken (with `[]` as the never-reached error default). -/
def gA (s : State) : List (String × State × ℤ) := (graphOf recipesA s).getD []

/-- Scenario goal predicate: at least 4 planks, as a total function on the
scenario's full-key states (with `false` as the never-reached error
default). -/
def goalA (s : State) : Bool := (make_goal_checker [("plank", 4)] s).getD false

/-- Scenario heuristic: constantly zero. -/
def h0 : State → WithTop ℤ := fun _ => (0 : ℤ)

/-- Amount a clause assigns to an item: the amount at the first occurrence of
the item's name in the clause list, `0` when the item is not named. -/
def clauseAmt : List (Item × ℕ) → Item → ℕ
  | [], _ => 0
  | (n, a) :: rest, m => if n = m then a else clauseAmt rest m

/-- The state at the head of a plan, when any. -/
def headState (p : Plan) : Option State := p.head?.map Prod.fst

/-- A state built by inserting item a first, then item b. -/
def st1 : State := [("a", (1 : ℤ)), ("b", (2 : ℤ))]

/-- A state built from the same item-to-quantity mapping as `st1`, inserting
item b first. -/
def st2 : State := [("b", (2 : ℤ)), ("a", (1 : ℤ))]

/-- A malformed rule description: its `Consumes` clause names the item
`ghost`, unknown to the domain, and its cost is negative. -/
def ruleBad : RuleDesc :=
  { consumes := some [("ghost", 1)]
    requires := none
    produces := [("wood", 1)]
    time := -3 }

/-- A rule description whose `Requires` clause names the item `bench`. -/
def ruleReq : RuleDesc :=
  { consumes := none
    requires := some ["bench"]
    produces := [("wood", 1)]
    time := 0 }

/-- A one-item domain state holding no wood. -/
def sW : State := [("wood", (0 : ℤ))]

/-- A goal predicate no state satisfies. -/
def goalNone : State → Bool := fun _ => false

example : make_checker ruleChop s0 = some true := by decide
example : make_effector ruleChop s0 = some s1 := by decide
example : gA s0 = [("chop", s1, 1)] := by decide
example : goalA s1 = true := by decide
example : search gA goalA h0 s0 5 [0] 10
    = some (some [(s0, "chop"), (s1, "complete")]) := by decide

lemma lookupS_setS_self (s : State) (n : Item) (x : ℤ) :
    lookupS (setS s n x) n = (lookupS s n).map (fun _ => x) := by
  induction s with
  | nil => simp [lookupS, setS]
  | cons hd tl ih =>
      obtain ⟨k, v⟩ := hd
      by_cases hk : k = n
      · simp [lookupS, setS, hk]
      · simp [lookupS, setS, hk, ih]

lemma lookupS_setS_ne (s : State) (n m : Item) (x : ℤ) (h : m ≠ n) :
    lookupS (setS s n x) m = lookupS s m := by
  induction s with
  | nil => simp [setS]
  | cons hd tl ih =>
      obtain ⟨k, v⟩ := hd
      by_cases hk : k = n
      · subst hk
        simp [lookupS, setS, Ne.symm h]
      · by_cases hm : k = m
        · subst hm
          simp [lookupS, setS, hk]
        · simp [lookupS, setS, hk, hm, ih]

lemma setS_keys (s : State) (n : Item) (x : ℤ) :
    (setS s n x).map Prod.fst = s.map Prod.fst := by
  induction s with
  | nil => simp [setS]
  | cons hd tl ih =>
      obtain ⟨k, v⟩ := hd
      by_cases hk : k = n <;> simp [setS, hk, ih]

lemma clauseAmt_of_not_mem {l : List (Item × ℕ)} {m : Item}
    (h : m ∉ l.map Prod.fst) : clauseAmt l m = 0 := by
  induction l with
  | nil => rfl
  | cons hd tl ih =>
      obtain ⟨n, a⟩ := hd
      simp only [List.map_cons, List.mem_cons] at h
      push_neg at h
      simp [clauseAmt, Ne.symm h.1, ih h.2]

lemma clauseAmt_of_mem {l : List (Item × ℕ)} {n : Item} {a : ℕ}
    (hnd : (l.map Prod.fst).Nodup) (h : (n, a) ∈ l) : clauseAmt l n = a := by
  induction l with
  | nil => simp at h
  | cons hd tl ih =>
      obtain ⟨k, b⟩ := hd
      simp only [List.map_cons, List.nodup_cons] at hnd
      rcases List.mem_cons.mp h with h1 | h1
      · injection h1 with hk hb
        subst hk; subst hb
        simp [clauseAmt]
      · have hk : k ≠ n := by
          intro hkn
          subst hkn
          exact hnd.1 (List.mem_map.mpr ⟨(k, a), h1, rfl⟩)
        simp [clauseAmt, hk, ih hnd.2 h1]

lemma consumeAll_spec :
    ∀ (cs : List (Item × ℕ)) (s : State),
      (cs.map Prod.fst).Nodup →
      (∀ p ∈ cs, (lookupS s p.1).isSome = true) →
      ∃ s2, consumeAll s cs = some s2 ∧
        s2.map Prod.fst = s.map Prod.fst ∧
        ∀ m, lookupS s2 m = (lookupS s m).map
          (fun q => q - (clauseAmt cs m : ℤ)) := by
  intro cs
  induction cs with
  | nil =>
      intro s _ _
      refine ⟨s, rfl, rfl, fun m => ?_⟩
      cases lookupS s m <;> simp [clauseAmt]
  | cons hd rest ih =>
      intro s hnd hk
      obtain ⟨n, a⟩ := hd
      obtain ⟨q, hq0⟩ := Option.isSome_iff_exists.mp
        (hk (n, a) (List.mem_cons_self _ _))
      have hq : lookupS s n = some q := hq0
      simp only [List.map_cons, List.nodup_cons] at hnd
      have hstep : consumeAll s ((n, a) :: rest)
          = consumeAll (setS s n (q - (a : ℤ))) rest := by
        simp [consumeAll, subItem, hq]
      set s1 := setS s n (q - (a : ℤ)) with hs1
      have hk1 : ∀ p ∈ rest, (lookupS s1 p.1).isSome = true := by
        intro p hp
        by_cases hpn : p.1 = n
        · rw [hs1, hpn, lookupS_setS_self, hq]; rfl
        · rw [hs1, lookupS_setS_ne s n p.1 _ hpn]
          exact hk p (List.mem_cons_of_mem _ hp)
      obtain ⟨s2, h1, h2, h3⟩ := ih s1 hnd.2 hk1
      refine ⟨s2, by rw [hstep, h1], by rw [h2, hs1, setS_keys], fun m => ?_⟩
      by_cases hmn : m = n
      · subst hmn
        have hz : clauseAmt rest m = 0 := clauseAmt_of_not_mem hnd.1
        rw [h3 m, hs1, lookupS_setS_self, hq]
        simp [clauseAmt, hz]
      · have hcons : clauseAmt ((n, a) :: rest) m = clauseAmt rest m := by
          have hnm : n ≠ m := fun hx => hmn hx.symm
          simp [clauseAmt, hnm]
        rw [h3 m, hs1, lookupS_setS_ne s n m _ hmn, hcons]

lemma produceAll_spec :
    ∀ (ps : List (Item × ℕ)) (s : State),
      (ps.map Prod.fst).Nodup →
      (∀ p ∈ ps, (lookupS s p.1).isSome = true) →
      ∃ s2, produceAll s ps = some s2 ∧
        s2.map Prod.fst = s.map Prod.fst ∧
        ∀ m, lookupS s2 m = (lookupS s m).map
          (fun q => q + (clauseAmt ps m : ℤ)) := by
  intro ps
  induction ps with
  | nil =>
      intro s _ _
      refine ⟨s, rfl, rfl, fun m => ?_⟩
      cases lookupS s m <;> simp [clauseAmt]
  | cons hd rest ih =>
      intro s hnd hk
      obtain ⟨n, a⟩ := hd
      obtain ⟨q, hq0⟩ := Option.isSome_iff_exists.mp
        (hk (n, a) (List.mem_cons_self _ _))
      have hq : lookupS s n = some q := hq0
      simp only [List.map_cons, List.nodup_cons] at hnd
      have hstep : produceAll s ((n, a) :: rest)
          = produceAll (setS s n (q + (a : ℤ))) rest := by
        simp [produceAll, addItem, hq]
      set s1 := setS s n (q + (a : ℤ)) with hs1
      have hk1 : ∀ p ∈ rest, (lookupS s1 p.1).isSome = true := by
        intro p hp
        by_cases hpn : p.1 = n
        · rw [hs1, hpn, lookupS_setS_self, hq]; rfl
        · rw [hs1, lookupS_setS_ne s n p.1 _ hpn]
          exact hk p (List.mem_cons_of_mem _ hp)
      obtain ⟨s2, h1, h2, h3⟩ := ih s1 hnd.2 hk1
      refine ⟨s2, by rw [hstep, h1], by rw [h2, hs1, setS_keys], fun m => ?_⟩
      by_cases hmn : m = n
      · subst hmn
        have hz : clauseAmt rest m = 0 := clauseAmt_of_not_mem hnd.1
        rw [h3 m, hs1, lookupS_setS_self, hq]
        simp [clauseAmt, hz]
      · have hcons : clauseAmt ((n, a) :: rest) m = clauseAmt rest m := by
          have hnm : n ≠ m := fun hx => hmn hx.symm
          simp [clauseAmt, hnm]
        rw [h3 m, hs1, lookupS_setS_ne s n m _ hmn, hcons]

lemma make_effector_spec (r : RuleDesc) (s : State)
    (hnc : ((consList r).map Prod.fst).Nodup)
    (hnp : (r.produces.map Prod.fst).Nodup)
    (hkc : ∀ p ∈ consList r, (lookupS s p.1).isSome = true)
    (hkp : ∀ p ∈ r.produces, (lookupS s p.1).isSome = true) :
    ∃ s2, make_effector r s = some s2 ∧
      s2.map Prod.fst = s.map Prod.fst ∧
      ∀ m, lookupS s2 m = (lookupS s m).map
        (fun q => q - (clauseAmt (consList r) m : ℤ)
                    + (clauseAmt r.produces m : ℤ)) := by
  obtain ⟨s1, hc1, hc2, hc3⟩ := consumeAll_spec (consList r) s hnc hkc
  have hkp1 : ∀ p ∈ r.produces, (lookupS s1 p.1).isSome = true := by
    intro p hp
    rw [hc3 p.1]
    cases hx : lookupS s p.1 with
    | none => exact absurd (hkp p hp) (by simp [hx])
    | some q => simp
  obtain ⟨s2, hp1, hp2, hp3⟩ := produceAll_spec r.produces s1 hnp hkp1
  have heff : make_effector r s = some s2 := by
    cases hcs : r.consumes with
    | none =>
        have hnil : consList r = [] := by simp [consList, hcs]
        rw [hnil] at hc1
        simp only [consumeAll] at hc1
        injection hc1 with hc1
        simp only [make_effector, hcs]
        rw [hc1]
        exact hp1
    | some cs =>
        have : consList r = cs := by simp [consList, hcs]
        rw [this] at hc1
        simp [make_effector, hcs, hc1, hp1]
  refine ⟨s2, heff, by rw [hp2, hc2], fun m => ?_⟩
  rw [hp3 m, hc3 m]
  cases lookupS s m <;> simp

lemma checkConsumes_spec :
    ∀ (cs : List (Item × ℕ)) (s : State),
      (∀ p ∈ cs, (lookupS s p.1).isSome = true) →
      ∃ b, checkConsumes s cs = some b ∧
        (b = true ↔ ∀ p ∈ cs, (p.2 : ℤ) ≤ (lookupS s p.1).getD 0) := by
  intro cs
  induction cs with
  | nil => intro s _; exact ⟨true, rfl, by simp⟩
  | cons hd rest ih =>
      intro s hk
      obtain ⟨n, a⟩ := hd
      obtain ⟨q, hq0⟩ := Option.isSome_iff_exists.mp
        (hk (n, a) (List.mem_cons_self _ _))
      have hq : lookupS s n = some q := hq0
      by_cases hlt : q < (a : ℤ)
      · refine ⟨false, by simp [checkConsumes, hq, hlt], ?_⟩
        refine iff_of_false (by simp) fun hall => ?_
        have := hall (n, a) (List.mem_cons_self _ _)
        rw [hq0] at this
        simp only [Option.getD_some] at this
        omega
      · obtain ⟨b, hb1, hb2⟩ := ih s (fun p hp => hk p (List.mem_cons_of_mem _ hp))
        refine ⟨b, by simp [checkConsumes, hq, hlt, hb1], ?_⟩
        rw [hb2]
        constructor
        · intro hall p hp
          rcases List.mem_cons.mp hp with h1 | h1
          · subst h1
            rw [hq0]
            simp only [Option.getD_some]
            omega
          · exact hall p h1
        · intro hall p hp
          exact hall p (List.mem_cons_of_mem _ hp)

lemma checkRequires_spec :
    ∀ (rq : List Item) (s : State),
      (∀ n ∈ rq, (lookupS s n).isSome = true) →
      ∃ b, checkRequires s rq = some b ∧
        (b = true ↔ ∀ n ∈ rq, 1 ≤ (lookupS s n).getD 0) := by
  intro rq
  induction rq with
  | nil => intro s _; exact ⟨true, rfl, by simp⟩
  | cons n rest ih =>
      intro s hk
      obtain ⟨q, hq⟩ := Option.isSome_iff_exists.mp
        (hk n (List.mem_cons_self _ _))
      by_cases hlt : q < 1
      · refine ⟨false, by simp [checkRequires, hq, hlt], ?_⟩
        refine iff_of_false (by simp) fun hall => ?_
        have := hall n (List.mem_cons_self _ _)
        rw [hq] at this
        simp only [Option.getD_some] at this
        omega
      · obtain ⟨b, hb1, hb2⟩ := ih s (fun p hp => hk p (List.mem_cons_of_mem _ hp))
        refine ⟨b, by simp [checkRequires, hq, hlt, hb1], ?_⟩
        rw [hb2]
        constructor
        · intro hall p hp
          rcases List.mem_cons.mp hp with h1 | h1
          · subst h1
            rw [hq]
            simp only [Option.getD_some]
            omega
          · exact hall p h1
        · intro hall p hp
          exact hall p (List.mem_cons_of_mem _ hp)

lemma make_checker_spec (r : RuleDesc) (s : State)
    (hkc : ∀ p ∈ consList r, (lookupS s p.1).isSome = true)
    (hkr : ∀ n ∈ reqList r, (lookupS s n).isSome = true) :
    ∃ b, make_checker r s = some b ∧
      (b = true ↔
        (∀ p ∈ consList r, (p.2 : ℤ) ≤ (lookupS s p.1).getD 0) ∧
        (∀ n ∈ reqList r, 1 ≤ (lookupS s n).getD 0)) := by
  obtain ⟨bc, hbc1, hbc2⟩ := checkConsumes_spec (consList r) s hkc
  obtain ⟨br, hbr1, hbr2⟩ := checkRequires_spec (reqList r) s hkr
  have hcpart : (match r.consumes with
      | none => some true
      | some cs => checkConsumes s cs) = some bc := by
    cases hcs : r.consumes with
    | none =>
        have : consList r = [] := by simp [consList, hcs]
        rw [this] at hbc1
        simp only [checkConsumes] at hbc1
        injection hbc1 with hbc1
        simp [← hbc1]
    | some cs =>
        have : consList r = cs := by simp [consList, hcs]
        rw [this] at hbc1
        simp [hbc1]
  cases hb : bc with
  | false =>
      refine ⟨false, ?_, ?_⟩
      · rw [make_checker, hcpart, hb]
      · refine iff_of_false (by simp) fun hall => ?_
        rw [hb] at hbc2
        exact absurd (hbc2.mpr hall.1) (by simp)
  | true =>
      rw [hb] at hbc2
      have hcall : ∀ p ∈ consList r, (p.2 : ℤ) ≤ (lookupS s p.1).getD 0 :=
        hbc2.mp rfl
      cases hrq : r.requires with
      | none =>
          refine ⟨true, ?_, ?_⟩
          · rw [make_checker, hcpart, hb, hrq]
          · have hre : reqList r = [] := by simp [reqList, hrq]
            refine iff_of_true rfl ⟨hcall, fun n hn => ?_⟩
            rw [hre] at hn
            simp at hn
      | some rq =>
          have hreq : reqList r = rq := by simp [reqList, hrq]
          refine ⟨br, ?_, ?_⟩
          · simp only [make_checker, hcpart, hb, hrq]
            rw [← hreq]
            exact hbr1
          · rw [hbr2]
            constructor
            · intro h
              exact ⟨hcall, h⟩
            · intro h
              exact h.2

lemma checkConsumes_true :
    ∀ (cs : List (Item × ℕ)) (s : State),
      checkConsumes s cs = some true →
      ∀ p ∈ cs, ∃ q, lookupS s p.1 = some q ∧ (p.2 : ℤ) ≤ q := by
  intro cs
  induction cs with
  | nil => intro s _ p hp; simp at hp
  | cons hd rest ih =>
      intro s hc p hp
      obtain ⟨n, a⟩ := hd
      cases hq : lookupS s n with
      | none => simp [checkConsumes, hq] at hc
      | some q =>
          simp only [checkConsumes, hq] at hc
          by_cases hlt : q < (a : ℤ)
          · rw [if_pos hlt] at hc
            exact absurd hc (by simp)
          · rw [if_neg hlt] at hc
            rcases List.mem_cons.mp hp with h1 | h1
            · subst h1
              exact ⟨q, hq, by omega⟩
            · exact ih s hc p h1

lemma make_checker_true_consumes (r : RuleDesc) (s : State)
    (h : make_checker r s = some true) :
    ∀ p ∈ consList r, ∃ q, lookupS s p.1 = some q ∧ (p.2 : ℤ) ≤ q := by
  cases hcs : r.consumes with
  | none =>
      have : consList r = [] := by simp [consList, hcs]
      rw [this]
      intro p hp
      simp at hp
  | some cs =>
      have hcl : consList r = cs := by simp [consList, hcs]
      rw [hcl]
      cases hcc : checkConsumes s cs with
      | none => simp [make_checker, hcs, hcc] at h
      | some b =>
          cases b with
          | false => simp [make_checker, hcs, hcc] at h
          | true => exact checkConsumes_true cs s hcc

lemma is_goal_spec :
    ∀ (goal : List (Item × ℕ)) (s : State),
      (∀ p ∈ goal, (lookupS s p.1).isSome = true) →
      ∃ b, is_goal goal s = some b ∧
        (b = true ↔ ∀ p ∈ goal, (p.2 : ℤ) ≤ (lookupS s p.1).getD 0) := by
  intro goal
  induction goal with
  | nil => intro s _; exact ⟨true, rfl, by simp⟩
  | cons hd rest ih =>
      intro s hk
      obtain ⟨n, a⟩ := hd
      obtain ⟨q, hq0⟩ := Option.isSome_iff_exists.mp
        (hk (n, a) (List.mem_cons_self _ _))
      have hq : lookupS s n = some q := hq0
      by_cases hlt : q < (a : ℤ)
      · refine ⟨false, by simp [is_goal, hq, hlt], ?_⟩
        refine iff_of_false (by simp) fun hall => ?_
        have := hall (n, a) (List.mem_cons_self _ _)
        rw [hq0] at this
        simp only [Option.getD_some] at this
        omega
      · obtain ⟨b, hb1, hb2⟩ := ih s (fun p hp => hk p (List.mem_cons_of_mem _ hp))
        refine ⟨b, by simp [is_goal, hq, hlt, hb1], ?_⟩
        rw [hb2]
        constructor
        · intro hall p hp
          rcases List.mem_cons.mp hp with h1 | h1
          · subst h1
            rw [hq0]
            simp only [Option.getD_some]
            omega
          · exact hall p h1
        · intro hall p hp
          exact hall p (List.mem_cons_of_mem _ hp)

lemma is_goal_congr :
    ∀ (goal : List (Item × ℕ)) (s t : State),
      (∀ p ∈ goal, lookupS t p.1 = lookupS s p.1) →
      is_goal goal t = is_goal goal s := by
  intro goal
  induction goal with
  | nil => intro s t _; rfl
  | cons hd rest ih =>
      intro s t hagree
      obtain ⟨n, a⟩ := hd
      have hn : lookupS t n = lookupS s n :=
        hagree (n, a) (List.mem_cons_self _ _)
      have hrest := ih s t (fun p hp => hagree p (List.mem_cons_of_mem _ hp))
      rw [is_goal, is_goal, hn, hrest]

lemma walkBack_shape (cf : State → Option (Option (State × String)))
    (init : State) :
    ∀ fuel cur acc res,
      walkBack cf init fuel cur acc = some res →
      ∃ pre, res = pre ++ acc ∧ (pre = [] → cur = init) ∧
        ∀ x ∈ pre.head?, x.1 = init := by
  intro fuel
  induction fuel with
  | zero => intro cur acc res hres; simp [walkBack] at hres
  | succ fuel ih =>
      intro cur acc res hres
      simp only [walkBack] at hres
      by_cases hcur : cur = init
      · rw [if_pos hcur] at hres
        injection hres with hres
        exact ⟨[], by simp [hres], fun _ => hcur, by simp⟩
      · rw [if_neg hcur] at hres
        cases hcf : cf cur with
        | none => simp [hcf] at hres
        | some o =>
            cases o with
            | none => simp [hcf] at hres
            | some pr =>
                obtain ⟨prev, name⟩ := pr
                simp only [hcf] at hres
                obtain ⟨pre1, h1, h2, h3⟩ := ih prev ((prev, name) :: acc) res hres
                refine ⟨pre1 ++ [(prev, name)], by rw [h1]; simp, ?_, ?_⟩
                · intro hx; simp at hx
                · intro x hx
                  cases pre1 with
                  | nil =>
                      simp only [List.nil_append, List.head?_cons,
                        Option.mem_def, Option.some.injEq] at hx
                      rw [← hx] at *
                      exact (h2 rfl)
                  | cons y ys =>
                      simp only [List.cons_append, List.head?_cons,
                        Option.mem_def, Option.some.injEq] at hx
                      rw [← hx] at *
                      exact h3 y (by simp)

lemma innerLoop_plan_shape (g : State → List (String × State × ℤ))
    (goal : State → Bool) (h : State → WithTop ℤ) (init : State) :
    ∀ fuel ss p,
      innerLoop g goal h init fuel ss = some (some p) →
      ∃ pre sg, p = pre ++ [(sg, "complete")] ∧ goal sg = true ∧
        headState p = some init := by
  intro fuel
  induction fuel with
  | zero => intro ss p hres; simp [innerLoop] at hres
  | succ fuel ih =>
      intro ss p hres
      simp only [innerLoop] at hres
      cases hpop : popMin ss.frontier with
      | none => simp [hpop] at hres
      | some er =>
          obtain ⟨e, rest⟩ := er
          simp only [hpop] at hres
          by_cases hg : goal e.2
          · rw [if_pos hg] at hres
            cases hwb : walkBack ss.came_from init (fuel + 1) e.2
                [(e.2, "complete")] with
            | none => simp [hwb] at hres
            | some q =>
                simp only [hwb] at hres
                injection hres with hres
                injection hres with hres
                subst hres
                obtain ⟨pre, h1, h2, h3⟩ :=
                  walkBack_shape ss.came_from init (fuel + 1) e.2
                    [(e.2, "complete")] q hwb
                refine ⟨pre, e.2, h1, hg, ?_⟩
                cases pre with
                | nil =>
                    rw [h1, h2 rfl]
                    simp [headState]
                | cons y ys =>
                    rw [h1]
                    have : y.1 = init := h3 y (by simp)
                    simp [headState, this]
          · rw [if_neg hg] at hres
            exact ih _ p hres

lemma innerLoop_no_goal (g : State → List (String × State × ℤ))
    (goal : State → Bool) (h : State → WithTop ℤ) (init : State)
    (hg : ∀ s, goal s = false) :
    ∀ fuel ss,
      innerLoop g goal h init fuel ss = none ∨
      innerLoop g goal h init fuel ss = some none := by
  intro fuel
  induction fuel with
  | zero => intro ss; left; rfl
  | succ fuel ih =>
      intro ss
      simp only [innerLoop]
      cases hpop : popMin ss.frontier with
      | none => right; rfl
      | some er =>
          obtain ⟨e, rest⟩ := er
          simp only [hg e.2, Bool.false_eq_true, if_false]
          exact ih _

lemma search_no_goal (g : State → List (String × State × ℤ))
    (goal : State → Bool) (h : State → WithTop ℤ) (init : State) (limit : ℤ)
    (hg : ∀ s, goal s = false) :
    ∀ readings fuel,
      search g goal h init limit readings fuel = none ∨
      search g goal h init limit readings fuel = some none := by
  intro readings
  induction readings with
  | nil => intro fuel; left; rfl
  | cons r rs ih =>
      intro fuel
      simp only [search]
      by_cases hr : r < limit
      · rw [if_pos hr]
        rcases innerLoop_no_goal g goal h init hg fuel (startState init)
          with hc | hc
        · left; simp [hc]
        · have := ih fuel
          rcases this with h2 | h2
          · left; simp [hc, h2]
          · right; simp [hc, h2]
      · rw [if_neg hr]; right; rfl

lemma search_plan_shape (g : State → List (String × State × ℤ))
    (goal : State → Bool) (h : State → WithTop ℤ) (init : State) (limit : ℤ) :
    ∀ readings fuel p,
      search g goal h init limit readings fuel = some (some p) →
      ∃ pre sg, p = pre ++ [(sg, "complete")] ∧ goal sg = true ∧
        headState p = some init := by
  intro readings
  induction readings with
  | nil => intro fuel p hp; simp [search] at hp
  | cons r rs ih =>
      intro fuel p hp
      simp only [search] at hp
      by_cases hr : r < limit
      · rw [if_pos hr] at hp
        cases hc : innerLoop g goal h init fuel (startState init) with
        | none => simp [hc] at hp
        | some o =>
            cases o with
            | none =>
                simp only [hc] at hp
                exact ih fuel p hp
            | some q =>
                simp only [hc] at hp
                injection hp with hp
                injection hp with hp
                subst hp
                exact innerLoop_plan_shape g goal h init fuel (startState init)
                  q hc
      · rw [if_neg hr] at hp
        simp at hp

/-- Claim C1: during each search expansion, for every successor
`(name, nxt, action_cost)` yielded for the popped state `current`, the engine
computes `new_cost = cost_so_far[current] + action_cost`, and exactly when
`nxt` has no recorded accumulated cost or `new_cost` is strictly smaller than
its recorded cost, it records `new_cost` as the cost of `nxt`, records
`(current, name)` as the predecessor of `nxt`, and pushes `nxt` onto the
frontier with priority `new_cost + heuristic(current)` — the heuristic
evaluated at the current state, not at the successor; otherwise it leaves the
bookkeeping unchanged.  `relaxOne` is the per-successor body of the expansion
loop used by the search via `innerLoop`. -/
theorem relax_records_exactly_on_improvement
    (h : State → WithTop ℤ) (current nxt : State) (name : String)
    (action_cost c : ℤ) (ss : SearchState)
    (hc : ss.cost current = some c) :
    ((ss.cost nxt = none ∨ ∃ cn, ss.cost nxt = some cn ∧ action_cost + c < cn) →
      ((relaxOne h current ss (name, nxt, action_cost)).cost nxt
          = some (action_cost + c) ∧
       (relaxOne h current ss (name, nxt, action_cost)).came_from nxt
          = some (some (current, name)) ∧
       (relaxOne h current ss (name, nxt, action_cost)).frontier
          = (((action_cost + c : ℤ) : WithTop ℤ) + h current, nxt)
              :: ss.frontier ∧
       ∀ t, t ≠ nxt →
         (relaxOne h current ss (name, nxt, action_cost)).cost t = ss.cost t ∧
         (relaxOne h current ss (name, nxt, action_cost)).came_from t
           = ss.came_from t))
    ∧ ((∃ cn, ss.cost nxt = some cn ∧ cn ≤ action_cost + c) →
        relaxOne h current ss (name, nxt, action_cost) = ss) := by
  constructor
  · intro himp
    have himpB : improves (ss.cost nxt) (action_cost + c) = true := by
      rcases himp with hnone | ⟨cn, hcn, hlt⟩
      · rw [hnone]; rfl
      · rw [hcn]; simp [improves, hlt]
    have hre : relaxOne h current ss (name, nxt, action_cost) =
        { frontier := (((action_cost + c : ℤ) : WithTop ℤ) + h current, nxt)
            :: ss.frontier
          came_from := fun t =>
            if t = nxt then some (some (current, name)) else ss.came_from t
          cost := fun t =>
            if t = nxt then some (action_cost + c) else ss.cost t } := by
      simp only [relaxOne, hc, himpB, if_true]
    rw [hre]
    refine ⟨by simp, by simp, rfl, fun t ht => ⟨by simp [ht], by simp [ht]⟩⟩
  · rintro ⟨cn, hcn, hle⟩
    have himpB : improves (ss.cost nxt) (action_cost + c) = false := by
      rw [hcn]
      simp only [improves, decide_eq_false_iff_not]
      omega
    simp only [relaxOne, hc, himpB, Bool.false_eq_true, if_false]

/-- Witness for C1 at a concrete input: relaxing the successor
`("chop", s1, 1)` of `s0` from the initial bookkeeping, where `s1` has no
recorded cost, records cost `1 + 0` and predecessor `(s0, "chop")` for
`s1`. -/
theorem relax_records_witness :
    (relaxOne h0 s0 (startState s0) ("chop", s1, 1)).cost s1
        = some (1 + 0) ∧
    (relaxOne h0 s0 (startState s0) ("chop", s1, 1)).came_from s1
        = some (some (s0, "chop")) :=
  ⟨((relax_records_exactly_on_improvement h0 s0 s1 "chop" 1 0 (startState s0)
      (by decide)).1 (Or.inl (by decide))).1,
   ((relax_records_exactly_on_improvement h0 s0 s1 "chop" 1 0 (startState s0)
      (by decide)).1 (Or.inl (by decide))).2.1⟩

/-- Claim C2 (behaviour at the failing input): on the one-rule domain where
`"chop"` turns `s0` (1 wood) into `s1` (4 planks) and the goal is 4 planks,
the search returns the plan `[(s0, "chop"), (s1, "complete")]`: every pair
carries the action applied FROM its state and the sentinel `"complete"` sits
on the LAST pair (the goal state), not — as the claim and the source's own
comment describe — a first-pair sentinel with each subsequent pair carrying
the rule that produced its state, which would be
`[(s0, "complete"), (s1, "chop")]`. -/
theorem search_returns_shifted_plan :
    search gA goalA h0 s0 5 [0] 10
        = some (some [(s0, "chop"), (s1, "complete")]) ∧
    search gA goalA h0 s0 5 [0] 10
        ≠ some (some [(s0, "complete"), (s1, "chop")]) := by
  exact ⟨by decide, by decide⟩

/-- Claim C3: for every rule and every state whose key set contains all items
named by the rule's `Consumes` and `Requires` clauses, the compiled
`check(state)` returns (without error) a boolean that is true iff every
`Consumes` item has quantity at least its required amount and every
`Requires` item has quantity at least 1. -/
theorem check_true_iff_clauses_satisfied (r : RuleDesc) (s : State)
    (hkc : ∀ p ∈ consList r, (lookupS s p.1).isSome = true)
    (hkr : ∀ n ∈ reqList r, (lookupS s n).isSome = true) :
    ∃ b, make_checker r s = some b ∧
      (b = true ↔
        (∀ p ∈ consList r, (p.2 : ℤ) ≤ (lookupS s p.1).getD 0) ∧
        (∀ n ∈ reqList r, 1 ≤ (lookupS s n).getD 0)) :=
  make_checker_spec r s hkc hkr

/-- Witness for C3 at a concrete input: the chop rule against the state with
1 wood and 0 planks. -/
theorem check_true_iff_witness :
    ∃ b, make_checker ruleChop s0 = some b ∧
      (b = true ↔
        (∀ p ∈ consList ruleChop, (p.2 : ℤ) ≤ (lookupS s0 p.1).getD 0) ∧
        (∀ n ∈ reqList ruleChop, 1 ≤ (lookupS s0 n).getD 0)) :=
  check_true_iff_clauses_satisfied ruleChop s0 (by decide) (by decide)

/-- Claim C4: for every rule (with dictionary clauses, hence distinct clause
keys) and every state whose key set contains all items named by the rule, the
compiled `effect(state)` returns (without mutating its pure input) a new
state with the same items in the same order in which each item's quantity
changes by exactly its `Produces` amount minus its `Consumes` amount; every
item with no `Consumes` and no `Produces` amount — in particular an item
named only in `Requires` — keeps its quantity. -/
theorem effect_adjusts_and_frames (r : RuleDesc) (s : State)
    (hnc : ((consList r).map Prod.fst).Nodup)
    (hnp : (r.produces.map Prod.fst).Nodup)
    (hkc : ∀ p ∈ consList r, (lookupS s p.1).isSome = true)
    (hkp : ∀ p ∈ r.produces, (lookupS s p.1).isSome = true) :
    ∃ s2, make_effector r s = some s2 ∧
      s2.map Prod.fst = s.map Prod.fst ∧
      (∀ m, lookupS s2 m = (lookupS s m).map
        (fun q => q - (clauseAmt (consList r) m : ℤ)
                    + (clauseAmt r.produces m : ℤ))) ∧
      ∀ m, clauseAmt (consList r) m = 0 → clauseAmt r.produces m = 0 →
        lookupS s2 m = lookupS s m := by
  obtain ⟨s2, h1, h2, h3⟩ := make_effector_spec r s hnc hnp hkc hkp
  refine ⟨s2, h1, h2, h3, fun m hcz hpz => ?_⟩
  rw [h3 m, hcz, hpz]
  cases lookupS s m <;> simp

/-- Witness for C4 at a concrete input: the chop rule against the state with
1 wood and 0 planks. -/
theorem effect_adjusts_witness :
    ∃ s2, make_effector ruleChop s0 = some s2 ∧
      s2.map Prod.fst = s0.map Prod.fst ∧
      (∀ m, lookupS s2 m = (lookupS s0 m).map
        (fun q => q - (clauseAmt (consList ruleChop) m : ℤ)
                    + (clauseAmt ruleChop.produces m : ℤ))) ∧
      ∀ m, clauseAmt (consList ruleChop) m = 0 →
        clauseAmt ruleChop.produces m = 0 →
        lookupS s2 m = lookupS s0 m :=
  effect_adjusts_and_frames ruleChop s0 (by decide) (by decide)
    (by decide) (by decide)

/-- Claim C5: for every goal mapping and every state whose key set contains
all goal items, the compiled `is_goal(state)` returns (without error) a
boolean that is true iff the state's quantity of every goal item is at least
the goal's required amount, and its result depends only on the quantities of
the goal items: any state agreeing with `s` on the goal items gets the same
answer. -/
theorem goal_true_iff_thresholds_met (goal : List (Item × ℕ)) (s : State)
    (hk : ∀ p ∈ goal, (lookupS s p.1).isSome = true) :
    (∃ b, make_goal_checker goal s = some b ∧
      (b = true ↔ ∀ p ∈ goal, (p.2 : ℤ) ≤ (lookupS s p.1).getD 0)) ∧
    (∀ t, (∀ p ∈ goal, lookupS t p.1 = lookupS s p.1) →
      make_goal_checker goal t = make_goal_checker goal s) :=
  ⟨is_goal_spec goal s hk, fun t hagree => is_goal_congr goal s t hagree⟩

/-- Witness for C5 at a concrete input: the 4-planks goal against the state
with 4 planks. -/
theorem goal_true_iff_witness :
    (∃ b, make_goal_checker [("plank", 4)] s1 = some b ∧
      (b = true ↔ ∀ p ∈ [(("plank" : Item), (4 : ℕ))],
        (p.2 : ℤ) ≤ (lookupS s1 p.1).getD 0)) ∧
    (∀ t, (∀ p ∈ [(("plank" : Item), (4 : ℕ))], lookupS t p.1 = lookupS s1 p.1) →
      make_goal_checker [("plank", 4)] t = make_goal_checker [("plank", 4)] s1) :=
  goal_true_iff_thresholds_met [("plank", 4)] s1 (by decide)

/-- Claim C6: for every rule (with dictionary clauses) and every state with
non-negative quantities whose key set contains the rule's items, if
`check(state)` returns true then `effect(state)` leaves every item named in
the rule's `Consumes` clause with a non-negative quantity: consumption never
drives a consumed item's quantity below zero. -/
theorem checked_consume_nonneg (r : RuleDesc) (s : State)
    (hpos : ∀ p ∈ s, 0 ≤ p.2)
    (hnc : ((consList r).map Prod.fst).Nodup)
    (hnp : (r.produces.map Prod.fst).Nodup)
    (hkp : ∀ p ∈ r.produces, (lookupS s p.1).isSome = true)
    (hchk : make_checker r s = some true) :
    ∃ s2, make_effector r s = some s2 ∧
      ∀ p ∈ consList r, ∃ q, lookupS s2 p.1 = some q ∧ 0 ≤ q := by
  have hkc : ∀ p ∈ consList r, (lookupS s p.1).isSome = true := by
    intro p hp
    obtain ⟨q, hq, _⟩ := make_checker_true_consumes r s hchk p hp
    rw [hq]; rfl
  obtain ⟨s2, h1, _, h3⟩ := make_effector_spec r s hnc hnp hkc hkp
  refine ⟨s2, h1, fun p hp => ?_⟩
  obtain ⟨n, a⟩ := p
  obtain ⟨q, hq, hle⟩ := make_checker_true_consumes r s hchk (n, a) hp
  have hamt : clauseAmt (consList r) n = a := clauseAmt_of_mem hnc hp
  refine ⟨q - (clauseAmt (consList r) n : ℤ) + (clauseAmt r.produces n : ℤ),
    ?_, ?_⟩
  · rw [h3 n]
    have : lookupS s (n, a).1 = some q := hq
    rw [this]
    rfl
  · rw [hamt]
    have hprod : (0 : ℤ) ≤ (clauseAmt r.produces n : ℤ) := Int.natCast_nonneg _
    have hle2 : ((a : ℕ) : ℤ) ≤ q := hle
    omega

/-- Witness for C6 at a concrete input: the chop rule against the state with
1 wood and 0 planks, whose check passes. -/
theorem checked_consume_nonneg_witness :
    ∃ s2, make_effector ruleChop s0 = some s2 ∧
      ∀ p ∈ consList ruleChop, ∃ q, lookupS s2 p.1 = some q ∧ 0 ≤ q :=
  checked_consume_nonneg ruleChop s0 (by decide) (by decide) (by decide)
    (by decide) (by decide)

/-- Claim C7 fails on the code at this input: `st1` and `st2` are built from
equal item-to-quantity mappings (their lookups agree on every item name) but
differ in insertion order, and Python's `==` on these `OrderedDict` states is
order-sensitive, so they are not equal. -/
theorem state_eq_order_sensitive :
    (∀ i, lookupS st1 i = lookupS st2 i) ∧ stateEqB st1 st2 = false := by
  constructor
  · intro i
    by_cases ha : i = "a"
    · subst ha; decide
    · by_cases hb : i = "b"
      · subst hb; decide
      · simp [st1, st2, lookupS, Ne.symm ha, Ne.symm hb]
  · decide

/-- Claim C7 as amended: `hash(s) == hash(s)` always holds, state equality is
reflexive, symmetric and transitive, and two states whose ordered item
sequences (the `__key` tuples) are equal are equal and hash equal; equality
of the underlying mappings alone does not suffice, because `OrderedDict`
equality and the items-tuple hash are insertion-order-sensitive. -/
theorem state_eq_equivalence_and_hash :
    (∀ s : State, stateHash s = stateHash s) ∧
    (∀ a : State, stateEqB a a = true) ∧
    (∀ a b : State, stateEqB a b = true → stateEqB b a = true) ∧
    (∀ a b c : State,
      stateEqB a b = true → stateEqB b c = true → stateEqB a c = true) ∧
    (∀ a b : State, stateKey a = stateKey b →
      stateEqB a b = true ∧ stateHash a = stateHash b) := by
  refine ⟨fun s => rfl, fun a => by simp [stateEqB], ?_, ?_, ?_⟩
  · intro a b hab
    simp only [stateEqB, decide_eq_true_eq] at hab ⊢
    exact hab.symm
  · intro a b c hab hbc
    simp only [stateEqB, decide_eq_true_eq] at hab hbc ⊢
    exact hab.trans hbc
  · intro a b hk
    exact ⟨by simp [stateEqB, hk], hk⟩

/-- Witness for the amended C7 at a concrete input: `st1` equals and hashes
like itself. -/
theorem state_eq_equivalence_witness :
    stateEqB st1 st1 = true ∧ stateHash st1 = stateHash st1 :=
  ⟨(state_eq_equivalence_and_hash.2.2.2.2 st1 st1 rfl).1,
   state_eq_equivalence_and_hash.1 st1⟩

/-- Claim C8: the search returns the no-plan value `None` when the deadline
check fails, whether at the first check or after any number of
frontier-exhausting restarts with a goalless predicate, and any plan it does
return is fully constructed: it runs from the initial state to a
goal-satisfying state closed by the `"complete"` sentinel, never a partial
plan. -/
theorem search_failure_semantics (g : State → List (String × State × ℤ))
    (goal : State → Bool) (h : State → WithTop ℤ) (init : State) (limit : ℤ)
    (readings : List ℤ) (fuel : ℕ) :
    ((∀ s, goal s = false) →
      search g goal h init limit readings fuel = none ∨
      search g goal h init limit readings fuel = some none) ∧
    (∀ r rs, ¬ r < limit →
      search g goal h init limit (r :: rs) fuel = some none) ∧
    (∀ p, search g goal h init limit readings fuel = some (some p) →
      ∃ pre sg, p = pre ++ [(sg, "complete")] ∧ goal sg = true ∧
        headState p = some init) := by
  refine ⟨fun hg => search_no_goal g goal h init limit hg readings fuel,
    fun r rs hr => ?_,
    fun p hp => search_plan_shape g goal h init limit readings fuel p hp⟩
  simp only [search]
  rw [if_neg hr]

/-- Witness for C8 at concrete inputs: with a never-satisfied goal the search
reports no plan (or exhausts the modelling fuel), and with an
already-elapsed clock reading it returns `None` at once. -/
theorem search_failure_witness :
    (search gA goalNone h0 s0 5 [0] 3 = none ∨
     search gA goalNone h0 s0 5 [0] 3 = some none) ∧
    search gA goalA h0 s0 5 [7] 3 = some none :=
  ⟨(search_failure_semantics gA goalNone h0 s0 5 [0] 3).1 (fun _ => rfl),
   (search_failure_semantics gA goalA h0 s0 5 [] 3).2.1 7 [] (by decide)⟩

/-- Claim C9 fails on the code at this input: the rule-building loop accepts
the malformed rule `ruleBad` — its `Consumes` clause names the unknown item
`ghost` and its cost is negative — producing a `Recipe` that stores the
negative cost unchanged, whose misuse surfaces only when its compiled check
is invoked on a domain state and raises `KeyError` (modelled `none`) instead
of returning a boolean. -/
theorem compile_accepts_malformed :
    (compileRule "bad" ruleBad).cost = -3 ∧
    (compileRule "bad" ruleBad).check sW = none ∧
    (compileRule "bad" ruleBad).check sW ≠ some false := by
  exact ⟨rfl, by decide, by decide⟩

/-- Claim C9 as amended: rule compilation performs no validation — it stores
any cost, negative included, unchanged, and a clause naming an item missing
from a state yields a compiled check that raises `KeyError` only when first
invoked during the search, not at compilation time. -/
theorem compile_defers_validation :
    (∀ n r, (compileRule n r).cost = r.time) ∧
    (∀ s : State, lookupS s "ghost" = none →
      (compileRule "bad" ruleBad).check s = none) := by
  refine ⟨fun n r => rfl, fun s hs => ?_⟩
  simp [compileRule, make_checker, ruleBad, checkConsumes, hs]

/-- Witness for the amended C9 at a concrete input: the compiled check of the
malformed rule raises `KeyError` on the empty state. -/
theorem compile_defers_validation_witness :
    (compileRule "bad" ruleBad).check [] = none :=
  compile_defers_validation.2 [] (by decide)

/-- Claim C10: the compiled check and is_goal index the state directly, so on
states whose key set omits an item named in the rule's `Consumes` clause
(state lacking wood), in its `Requires` clause (state lacking a bench), or in
the goal mapping (state lacking planks), the call raises `KeyError`
(modelled `none`) instead of treating the missing item as quantity 0 and
returning false. -/
theorem missing_item_raises_keyerror :
    make_checker ruleChop [("plank", (0 : ℤ))] = none ∧
    make_checker ruleChop [("plank", (0 : ℤ))] ≠ some false ∧
    make_checker ruleReq sW = none ∧
    make_checker ruleReq sW ≠ some false ∧
    make_goal_checker [("plank", 4)] sW = none ∧
    make_goal_checker [("plank", 4)] sW ≠ some false := by
  exact ⟨by decide, by decide, by decide, by decide, by decide, by decide⟩

end CraftPlanner
